import Mathlib

/-
Verification of the tokenizing word/phrase substitution engine in src/main.py
(function translate_to_conlang, lines 82-138).  The embedding models Python
strings as lists of Char, Python dicts as association lists with unique keys,
and the possibility of an uncaught IndexError as the value none.
-/

/-- Character class of the regex class backslash-w: alphanumeric or underscore
(ASCII model of the Unicode-aware class used at line 89 of src/main.py). -/
def isWordChar (c : Char) : Bool := c.isAlphanum || c == '_'

/-- One merge step of the tokenizer: a character joins the following token
exactly when both are word characters or both are whitespace characters.
Punctuation characters never merge, so they stay single-character tokens. -/
def sameRun (c : Char) (t : List Char) : Bool :=
  match t with
  | [] => false
  | d :: _ => (isWordChar c && isWordChar d) || (c.isWhitespace && d.isWhitespace)

/-- The tokenizer of line 89 of src/main.py:
findall of the pattern (word run | single punctuation char | whitespace run).
It segments the input into maximal word runs, single punctuation characters and
maximal whitespace runs, left to right, with no gaps and no overlaps.  The
lemmas tokenize_word_run, tokenize_space_run and tokenize_punct below prove
that this recursion computes exactly those maximal runs. -/
def tokenize : List Char → List (List Char)
  | [] => []
  | c :: cs =>
    match tokenize cs with
    | [] => [[c]]
    | t :: ts => if sameRun c t then (c :: t) :: ts else [c] :: t :: ts

/-- A translation dictionary: an association list from key to replacement. -/
abbrev Dict := List (List Char × List Char)

/-- Python dict lookup (first matching key). -/
def dictLookup (d : Dict) (k : List Char) : Option (List Char) :=
  match d with
  | [] => none
  | (k₀, v) :: rest => if k₀ = k then some v else dictLookup rest k

/-- Python str.isupper: at least one cased character and no lowercase
character (ASCII model: cased = letter). -/
def pyIsUpper (l : List Char) : Bool :=
  l.any (fun c => c.isAlpha) && l.all (fun c => !c.isLower)

/-- The case-preservation block, lines 124-130 of src/main.py.  The argument
token is the source token, translated the looked-up replacement.  Returns none
when Python would raise an IndexError (indexing position 0 of an empty
string). -/
def applyCase (token translated : List Char) : Option (List Char) :=
  if pyIsUpper token then
    some (translated.map Char.toUpper)
  else
    match token with
    | [] => none
    | t0 :: trest =>
      if t0.isUpper && !trest.isEmpty then
        match translated with
        | [] => none
        | r0 :: rs => some (r0.toUpper :: rs.map Char.toLower)
      else if t0.isUpper then
        match translated with
        | [] => none
        | r0 :: _ => some [r0.toUpper]
      else some translated

/-- The test re.match of a word pattern against a token, line 96: the token is
nonempty and starts with a word character. -/
def isWordToken (t : List Char) : Bool :=
  match t with
  | [] => false
  | c :: _ => isWordChar c

/-- Single-word translation, lines 116-121: look the lowercased token up,
keep the token itself when absent. -/
def singleWord (d : Dict) (t : List Char) : List Char :=
  match dictLookup d (t.map Char.toLower) with
  | some v => v
  | none => t

/-- The rewrite loop of lines 92-137 of src/main.py, expressed as recursion
over the suffix of the token list that starts at the cursor.  A list pattern
of at least three tokens corresponds to the guard i + 2 < len(tokens).
Returns none when the case-preservation block raises. -/
def rewriteTokens (d : Dict) : List (List Char) → Option (List (List Char))
  | [] => some []
  | t :: t1 :: t2 :: r2 =>
    if isWordToken t then
      if t1.map Char.toLower = ['a', 'l', 'l'] then
        match dictLookup d (t.map Char.toLower ++ [' ', 'a', 'l', 'l']) with
        | some v =>
          match applyCase t v with
          | none => none
          | some tr => (rewriteTokens d (t2 :: r2)).map (fun out => tr :: out)
        | none =>
          match applyCase t t with
          | none => none
          | some tr => (rewriteTokens d (t1 :: t2 :: r2)).map (fun out => tr :: out)
      else if t1 = ['-'] ∧ t2.map Char.toLower = ['b', 'y', 'e'] then
        match dictLookup d ['g', 'o', 'o', 'd', '-', 'b', 'y', 'e'] with
        | some v =>
          match applyCase t v with
          | none => none
          | some tr => (rewriteTokens d r2).map (fun out => tr :: out)
        | none =>
          match applyCase t t with
          | none => none
          | some tr => (rewriteTokens d (t1 :: t2 :: r2)).map (fun out => tr :: out)
      else
        match applyCase t (singleWord d t) with
        | none => none
        | some tr => (rewriteTokens d (t1 :: t2 :: r2)).map (fun out => tr :: out)
    else
      (rewriteTokens d (t1 :: t2 :: r2)).map (fun out => t :: out)
  | t :: rest =>
    if isWordToken t then
      match applyCase t (singleWord d t) with
      | none => none
      | some tr => (rewriteTokens d rest).map (fun out => tr :: out)
    else
      (rewriteTokens d rest).map (fun out => t :: out)

/-- translate_to_conlang, lines 82-138 of src/main.py: tokenize, rewrite,
join.  Returns none when the Python function raises an IndexError. -/
def translate_to_conlang (text : String) (translation_dict : Dict) : Option String :=
  (rewriteTokens translation_dict (tokenize text.data)).map (fun ts => String.mk ts.flatten)

/-- Builds a Dict from string pairs, for concrete test dictionaries. -/
def mkDict (l : List (String × String)) : Dict :=
  l.map (fun p => (p.1.data, p.2.data))

/-! ### Character class facts -/

lemma isWhitespace_cases (c : Char) (h : c.isWhitespace = true) :
    c = ' ' ∨ c = '\t' ∨ c = '\r' ∨ c = '\n' := by
  simpa [Char.isWhitespace, or_assoc] using h

lemma sameRun_cases (c d : Char) (t : List Char) (hs : sameRun c (d :: t) = true) :
    (isWordChar c = true ∧ isWordChar d = true) ∨
      (c.isWhitespace = true ∧ d.isWhitespace = true) := by
  simpa [sameRun] using hs

lemma isWordChar_not_whitespace (c : Char) (h : isWordChar c = true) :
    c.isWhitespace = false := by
  cases hw : c.isWhitespace with
  | false => rfl
  | true =>
    exfalso
    rcases isWhitespace_cases c hw with h' | h' | h' | h' <;> subst h' <;> simp_all [isWordChar]

lemma whitespace_toLower (c : Char) (h : c.isWhitespace = true) : c.toLower = c := by
  rcases isWhitespace_cases c h with h' | h' | h' | h' <;> subst h' <;> decide

/-! ### Tokenizer facts -/

/-- Every run produced by the tokenizer is nonempty, and is a word token, a
single character, or a whitespace run. -/
def goodToken (t : List Char) : Prop :=
  t ≠ [] ∧ (isWordToken t = true ∨ t.length = 1 ∨ t.all Char.isWhitespace = true)

lemma tokenize_cons_head (c : Char) (cs : List Char) :
    ∃ t ts, tokenize (c :: cs) = (c :: t) :: ts := by
  simp only [tokenize]
  cases tokenize cs with
  | nil => exact ⟨[], [], rfl⟩
  | cons t ts =>
    by_cases h : sameRun c t = true
    · exact ⟨t, ts, by simp [h]⟩
    · exact ⟨[], t :: ts, by simp [h]⟩

lemma tokenize_flatten (l : List Char) : (tokenize l).flatten = l := by
  induction l with
  | nil => rfl
  | cons c cs ih =>
    simp only [tokenize]
    cases h : tokenize cs with
    | nil =>
      rw [h] at ih
      simp only [List.flatten_nil] at ih
      simp [← ih]
    | cons t ts =>
      rw [h] at ih
      by_cases hs : sameRun c t = true <;> simp [hs, ← ih]

lemma tokenize_shape (l : List Char) : ∀ t ∈ tokenize l, goodToken t := by
  induction l with
  | nil => simp [tokenize]
  | cons c cs ih =>
    simp only [tokenize]
    cases h : tokenize cs with
    | nil =>
      intro t ht
      simp only [List.mem_singleton] at ht
      subst ht
      exact ⟨by simp, Or.inr (Or.inl rfl)⟩
    | cons t ts =>
      rw [h] at ih
      by_cases hs : sameRun c t = true
      · simp only [if_pos hs]
        intro u hu
        rcases List.mem_cons.mp hu with hu | hu
        · subst hu
          refine ⟨by simp, ?_⟩
          cases t with
          | nil => simp [sameRun] at hs
          | cons d t' =>
            rcases sameRun_cases c d t' hs with ⟨hcw, hdw⟩ | ⟨hcw, hdw⟩
            · exact Or.inl (by simp [isWordToken, hcw])
            · refine Or.inr (Or.inr ?_)
              have hgd := ih (d :: t') (by simp)
              rcases hgd.2 with hword | hlen | hall
              · exfalso
                have : isWordChar d = true := by simpa [isWordToken] using hword
                have := isWordChar_not_whitespace d this
                simp [this] at hdw
              · have : t' = [] := by simpa using hlen
                subst this
                simp [hcw, hdw]
              · simp only [List.all_cons, Bool.and_eq_true] at hall ⊢
                exact ⟨hcw, hall⟩
        · exact ih u (List.mem_cons_of_mem _ hu)
      · simp only [if_neg hs]
        intro u hu
        rcases List.mem_cons.mp hu with hu | hu
        · subst hu
          exact ⟨by simp, Or.inr (Or.inl rfl)⟩
        · exact ih u hu

/-- No two word tokens are ever adjacent in the output of the tokenizer. -/
lemma tokenize_chain (l : List Char) :
    List.Chain' (fun a b => (isWordToken a && isWordToken b) = false) (tokenize l) := by
  induction l with
  | nil => simp [tokenize]
  | cons c cs ih =>
    simp only [tokenize]
    cases h : tokenize cs with
    | nil => simp
    | cons t ts =>
      rw [h] at ih
      have hshape := tokenize_shape cs
      rw [h] at hshape
      by_cases hs : sameRun c t = true
      · simp only [if_pos hs]
        rw [List.chain'_cons'] at ih ⊢
        refine ⟨?_, ih.2⟩
        intro b hb
        by_cases hcw : isWordChar c = true
        · -- the merged token is a word run, so t was a word token already
          have hR := ih.1 b hb
          cases t with
          | nil => simp [sameRun] at hs
          | cons d t' =>
            have hwt : isWordToken (d :: t') = true := by
              rcases sameRun_cases c d t' hs with ⟨_, hdw⟩ | ⟨hws, _⟩
              · simp [isWordToken, hdw]
              · exfalso
                have := isWordChar_not_whitespace c hcw
                simp [this] at hws
            simp only [hwt, Bool.true_and] at hR
            simp [hR]
        · have hc : isWordChar c = false := Bool.eq_false_iff.mpr hcw
          simp [isWordToken, hc]
      · simp only [if_neg hs]
        rw [List.chain'_cons]
        refine ⟨?_, ih⟩
        by_cases hcw : isWordChar c = true
        · cases t with
          | nil => simp [isWordToken]
          | cons d t' =>
            have hdw : isWordChar d = false := by
              by_contra hd
              have hd : isWordChar d = true := by simpa using hd
              exact hs (by simp [sameRun, hcw, hd])
            simp [isWordToken, hdw]
        · have hc : isWordChar c = false := Bool.eq_false_iff.mpr hcw
          simp [isWordToken, hc]

lemma whitespace_not_wordChar (c : Char) (h : c.isWhitespace = true) :
    isWordChar c = false := by
  cases hw : isWordChar c with
  | false => rfl
  | true => rw [isWordChar_not_whitespace c hw] at h; exact absurd h (by simp)

/-- One-step unfolding of the tokenizer. -/
lemma tokenize_cons_eq (c : Char) (cs : List Char) :
    tokenize (c :: cs) =
      match tokenize cs with
      | [] => [[c]]
      | t :: ts => if sameRun c t then (c :: t) :: ts else [c] :: t :: ts := rfl

/-- On a word character the tokenizer produces the maximal word run and
continues after it: the semantics of the regex alternative for words. -/
lemma tokenize_word_run (c : Char) (cs : List Char) (hw : isWordChar c = true) :
    tokenize (c :: cs) =
      (c :: cs.takeWhile isWordChar) :: tokenize (cs.dropWhile isWordChar) := by
  induction cs generalizing c with
  | nil => simp [tokenize]
  | cons c' cs' ih =>
    rw [tokenize_cons_eq]
    by_cases hw' : isWordChar c' = true
    · rw [ih c' hw']
      have hsr : sameRun c (c' :: List.takeWhile isWordChar cs') = true := by
        simp [sameRun, hw, hw']
      simp [hsr, List.takeWhile_cons_of_pos hw', List.dropWhile_cons_of_pos hw']
    · have hw'' : isWordChar c' = false := Bool.eq_false_iff.mpr hw'
      obtain ⟨t, ts, hct⟩ := tokenize_cons_head c' cs'
      rw [hct]
      have hsr : sameRun c (c' :: t) = false := by
        simp [sameRun, hw'', isWordChar_not_whitespace c hw]
      simp [hsr, List.takeWhile_cons_of_neg hw', List.dropWhile_cons_of_neg hw', ← hct]

/-- On a whitespace character the tokenizer produces the maximal whitespace
run and continues after it: the regex alternative for whitespace. -/
lemma tokenize_space_run (c : Char) (cs : List Char) (hw : c.isWhitespace = true) :
    tokenize (c :: cs) =
      (c :: cs.takeWhile Char.isWhitespace) :: tokenize (cs.dropWhile Char.isWhitespace) := by
  induction cs generalizing c with
  | nil => simp [tokenize]
  | cons c' cs' ih =>
    rw [tokenize_cons_eq]
    by_cases hw' : c'.isWhitespace = true
    · rw [ih c' hw']
      have hsr : sameRun c (c' :: List.takeWhile Char.isWhitespace cs') = true := by
        simp [sameRun, hw, hw']
      simp [hsr, List.takeWhile_cons_of_pos hw', List.dropWhile_cons_of_pos hw']
    · have hw'' : c'.isWhitespace = false := Bool.eq_false_iff.mpr hw'
      obtain ⟨t, ts, hct⟩ := tokenize_cons_head c' cs'
      rw [hct]
      have hsr : sameRun c (c' :: t) = false := by
        simp [sameRun, hw'', whitespace_not_wordChar c hw]
      simp [hsr, List.takeWhile_cons_of_neg hw', List.dropWhile_cons_of_neg hw', ← hct]

/-- On any other character the tokenizer produces a single-character token:
the regex alternative for punctuation. -/
lemma tokenize_punct (c : Char) (cs : List Char) (hw : isWordChar c = false)
    (hs : c.isWhitespace = false) : tokenize (c :: cs) = [c] :: tokenize cs := by
  rw [tokenize_cons_eq]
  cases h : tokenize cs with
  | nil => rfl
  | cons t ts =>
    have : sameRun c t = false := by
      cases t with
      | nil => rfl
      | cons d t' => simp [sameRun, hw, hs]
    simp [this]

/-! ### The rewriter with the word-all rule removed (claim C5) -/

/-- Modelled from the claim text of C5: the same rewriter as rewriteTokens but
with the word-all phrase rule (lines 99-106 of src/main.py) removed, so a word
token goes to the good-bye check and then to single-word handling. -/
def rewriteNoAllRule (d : Dict) : List (List Char) → Option (List (List Char))
  | [] => some []
  | t :: t1 :: t2 :: r2 =>
    if isWordToken t then
      if t1 = ['-'] ∧ t2.map Char.toLower = ['b', 'y', 'e'] then
        match dictLookup d ['g', 'o', 'o', 'd', '-', 'b', 'y', 'e'] with
        | some v =>
          match applyCase t v with
          | none => none
          | some tr => (rewriteNoAllRule d r2).map (fun out => tr :: out)
        | none =>
          match applyCase t t with
          | none => none
          | some tr => (rewriteNoAllRule d (t1 :: t2 :: r2)).map (fun out => tr :: out)
      else
        match applyCase t (singleWord d t) with
        | none => none
        | some tr => (rewriteNoAllRule d (t1 :: t2 :: r2)).map (fun out => tr :: out)
    else
      (rewriteNoAllRule d (t1 :: t2 :: r2)).map (fun out => t :: out)
  | t :: rest =>
    if isWordToken t then
      match applyCase t (singleWord d t) with
      | none => none
      | some tr => (rewriteNoAllRule d rest).map (fun out => tr :: out)
    else
      (rewriteNoAllRule d rest).map (fun out => t :: out)

/-- translate_to_conlang with the word-all rule removed (claim C5). -/
def translateNoAllRule (text : String) (translation_dict : Dict) : Option String :=
  (rewriteNoAllRule translation_dict (tokenize text.data)).map (fun ts => String.mk ts.flatten)

/-- The match condition of the word-all rule cannot hold at a pair of
adjacent tokens produced by the tokenizer. -/
lemma rule1_impossible (t t1 : List Char) (hw : isWordToken t = true)
    (hgood : goodToken t1) (hchain : (isWordToken t && isWordToken t1) = false)
    (h1 : t1.map Char.toLower = ['a', 'l', 'l']) : False := by
  have hnt1 : isWordToken t1 = false := by
    cases hwt1 : isWordToken t1 with
    | false => rfl
    | true => rw [hw, hwt1] at hchain; exact absurd hchain (by simp)
  obtain ⟨hne, hsh⟩ := hgood
  rcases hsh with hword | hlen | hall
  · rw [hword] at hnt1; exact absurd hnt1 (by simp)
  · have h3 : t1.length = 3 := by simpa using congrArg List.length h1
    omega
  · have h3 : t1.length = 3 := by simpa using congrArg List.length h1
    cases t1 with
    | nil => simp at h3
    | cons x xs =>
      cases xs with
      | nil => simp at h3
      | cons y ys =>
        cases ys with
        | nil => simp at h3
        | cons z zs =>
          cases zs with
          | cons w ws => simp at h3
          | nil =>
            simp only [List.map_cons, List.map_nil, List.cons.injEq, and_true] at h1
            simp only [List.all_cons, List.all_nil, Bool.and_eq_true, and_true] at hall
            have hx := whitespace_toLower x hall.1
            rw [hx] at h1
            rw [h1.1] at hall
            exact absurd hall.1 (by decide)

/-- On token sequences produced by the tokenizer (nonempty tokens, no two
adjacent word tokens), the rewriter agrees with the rewriter that has the
word-all rule removed. -/
lemma rewrite_noAllRule_eq (d : Dict) : ∀ ts : List (List Char),
    (∀ t ∈ ts, goodToken t) →
    List.Chain' (fun a b => (isWordToken a && isWordToken b) = false) ts →
    rewriteTokens d ts = rewriteNoAllRule d ts := by
  intro ts
  induction ts using rewriteTokens.induct d with
  | case1 => intro _ _; rfl
  | case2 t t1 t2 r2 hw h1 v hk happ =>
    intro hgood hchain
    exact (rule1_impossible t t1 hw (hgood t1 (by simp))
      (List.chain'_cons.mp hchain).1 h1).elim
  | case3 t t1 t2 r2 hw h1 v hk tr happ ih =>
    intro hgood hchain
    exact (rule1_impossible t t1 hw (hgood t1 (by simp))
      (List.chain'_cons.mp hchain).1 h1).elim
  | case4 t t1 t2 r2 hw h1 hk happ =>
    intro hgood hchain
    exact (rule1_impossible t t1 hw (hgood t1 (by simp))
      (List.chain'_cons.mp hchain).1 h1).elim
  | case5 t t1 t2 r2 hw h1 hk tr happ ih =>
    intro hgood hchain
    exact (rule1_impossible t t1 hw (hgood t1 (by simp))
      (List.chain'_cons.mp hchain).1 h1).elim
  | case6 t t1 t2 r2 hw hn1 h2 v hk happ =>
    intro hgood hchain
    simp only [rewriteTokens, rewriteNoAllRule, hw, ite_true, if_neg hn1,
      if_pos h2, hk, happ]
  | case7 t t1 t2 r2 hw hn1 h2 v hk tr happ ih =>
    intro hgood hchain
    have ihx := ih
      (fun u hu => hgood u
        (List.mem_cons_of_mem _ (List.mem_cons_of_mem _ (List.mem_cons_of_mem _ hu))))
      (hchain.tail.tail.tail)
    simp only [rewriteTokens, rewriteNoAllRule, hw, ite_true, if_neg hn1,
      if_pos h2, hk, happ]
    rw [ihx]
  | case8 t t1 t2 r2 hw hn1 h2 hk happ =>
    intro hgood hchain
    simp only [rewriteTokens, rewriteNoAllRule, hw, ite_true, if_neg hn1,
      if_pos h2, hk, happ]
  | case9 t t1 t2 r2 hw hn1 h2 hk tr happ ih =>
    intro hgood hchain
    have ihx := ih (fun u hu => hgood u (List.mem_cons_of_mem _ hu)) hchain.tail
    simp only [rewriteTokens, rewriteNoAllRule, hw, ite_true, if_neg hn1,
      if_pos h2, hk, happ]
    rw [ihx]
  | case10 t t1 t2 r2 hw hn1 hn2 happ =>
    intro hgood hchain
    simp only [rewriteTokens, rewriteNoAllRule, hw, ite_true, if_neg hn1,
      if_neg hn2, happ]
  | case11 t t1 t2 r2 hw hn1 hn2 tr happ ih =>
    intro hgood hchain
    have ihx := ih (fun u hu => hgood u (List.mem_cons_of_mem _ hu)) hchain.tail
    simp only [rewriteTokens, rewriteNoAllRule, hw, ite_true, if_neg hn1,
      if_neg hn2, happ]
    rw [ihx]
  | case12 t t1 t2 r2 hw ih =>
    intro hgood hchain
    have ihx := ih (fun u hu => hgood u (List.mem_cons_of_mem _ hu)) hchain.tail
    simp only [rewriteTokens, rewriteNoAllRule, hw, Bool.false_eq_true,
      ite_false, if_neg]
    rw [ihx]
  | case13 t rest hsh hw happ =>
    intro hgood hchain
    cases rest with
    | nil => simp only [rewriteTokens, rewriteNoAllRule, hw, ite_true, happ]
    | cons a as =>
      cases as with
      | nil => simp only [rewriteTokens, rewriteNoAllRule, hw, ite_true, happ]
      | cons b bs => exact (hsh a b bs rfl).elim
  | case14 t rest hsh hw tr happ ih =>
    intro hgood hchain
    cases rest with
    | nil => simp only [rewriteTokens, rewriteNoAllRule, hw, ite_true, happ]
    | cons a as =>
      cases as with
      | nil => simp only [rewriteTokens, rewriteNoAllRule, hw, ite_true, happ]
      | cons b bs => exact (hsh a b bs rfl).elim
  | case15 t rest hsh hw ih =>
    intro hgood hchain
    cases rest with
    | nil => simp only [rewriteTokens, rewriteNoAllRule, hw, ite_true, ite_false]
    | cons a as =>
      cases as with
      | nil => simp only [rewriteTokens, rewriteNoAllRule, hw, ite_true, ite_false]
      | cons b bs => exact (hsh a b bs rfl).elim

/-! ### Totality of the rewriter when every replacement is nonempty -/

lemma optionMap_isSome {α β : Type} (f : α → β) (o : Option α) :
    (o.map f).isSome = o.isSome := by cases o <;> rfl

lemma dictLookup_ne_nil (d : Dict) (hv : ∀ p ∈ d, p.2 ≠ []) (k v : List Char)
    (h : dictLookup d k = some v) : v ≠ [] := by
  induction d with
  | nil => simp [dictLookup] at h
  | cons p rest ih =>
    obtain ⟨k₀, v₀⟩ := p
    simp only [dictLookup] at h
    by_cases hk : k₀ = k
    · rw [if_pos hk] at h
      injection h with h'
      rw [← h']
      exact hv (k₀, v₀) (by simp)
    · rw [if_neg hk] at h
      exact ih (fun p hp => hv p (List.mem_cons_of_mem _ hp)) h

lemma singleWord_ne_nil (d : Dict) (hv : ∀ p ∈ d, p.2 ≠ []) (t : List Char)
    (ht : t ≠ []) : singleWord d t ≠ [] := by
  unfold singleWord
  cases h : dictLookup d (t.map Char.toLower) with
  | none => exact ht
  | some v => exact dictLookup_ne_nil d hv _ v h

/-- The case-preservation block cannot raise when both the source token and
the replacement are nonempty. -/
lemma applyCase_isSome (token translated : List Char) (ht : token ≠ [])
    (htr : translated ≠ []) : (applyCase token translated).isSome = true := by
  unfold applyCase
  by_cases hu : pyIsUpper token = true
  · simp [hu]
  · cases token with
    | nil => exact absurd rfl ht
    | cons t0 trest =>
      cases translated with
      | nil => exact absurd rfl htr
      | cons r0 rs =>
        by_cases h1 : (t0.isUpper && !trest.isEmpty) = true
        · simp [hu, h1]
        · by_cases h2 : t0.isUpper = true
          · simp [hu, h1, h2]
            split <;> simp
          · simp [hu, h1, h2]

/-- The rewriter never raises when every token is nonempty and every
dictionary replacement is nonempty. -/
lemma rewriteTokens_isSome (d : Dict) (hv : ∀ p ∈ d, p.2 ≠ []) : ∀ ts : List (List Char),
    (∀ t ∈ ts, t ≠ []) → (rewriteTokens d ts).isSome = true := by
  intro ts
  induction ts using rewriteTokens.induct d with
  | case1 => intro _; simp [rewriteTokens]
  | case2 t t1 t2 r2 hw h1 v hk happ =>
    intro hne
    have hs := applyCase_isSome t v (hne t (by simp)) (dictLookup_ne_nil d hv _ v hk)
    rw [happ] at hs
    exact absurd hs (by simp)
  | case3 t t1 t2 r2 hw h1 v hk tr happ ih =>
    intro hne
    simp only [rewriteTokens, hw, ite_true, if_pos h1, hk, happ, optionMap_isSome]
    exact ih (fun u hu => hne u (List.mem_cons_of_mem _ (List.mem_cons_of_mem _ hu)))
  | case4 t t1 t2 r2 hw h1 hk happ =>
    intro hne
    have hs := applyCase_isSome t t (hne t (by simp)) (hne t (by simp))
    rw [happ] at hs
    exact absurd hs (by simp)
  | case5 t t1 t2 r2 hw h1 hk tr happ ih =>
    intro hne
    simp only [rewriteTokens, hw, ite_true, if_pos h1, hk, happ, optionMap_isSome]
    exact ih (fun u hu => hne u (List.mem_cons_of_mem _ hu))
  | case6 t t1 t2 r2 hw hn1 h2 v hk happ =>
    intro hne
    have hs := applyCase_isSome t v (hne t (by simp)) (dictLookup_ne_nil d hv _ v hk)
    rw [happ] at hs
    exact absurd hs (by simp)
  | case7 t t1 t2 r2 hw hn1 h2 v hk tr happ ih =>
    intro hne
    simp only [rewriteTokens, hw, ite_true, if_neg hn1, if_pos h2, hk, happ,
      optionMap_isSome]
    exact ih (fun u hu => hne u
      (List.mem_cons_of_mem _ (List.mem_cons_of_mem _ (List.mem_cons_of_mem _ hu))))
  | case8 t t1 t2 r2 hw hn1 h2 hk happ =>
    intro hne
    have hs := applyCase_isSome t t (hne t (by simp)) (hne t (by simp))
    rw [happ] at hs
    exact absurd hs (by simp)
  | case9 t t1 t2 r2 hw hn1 h2 hk tr happ ih =>
    intro hne
    simp only [rewriteTokens, hw, ite_true, if_neg hn1, if_pos h2, hk, happ,
      optionMap_isSome]
    exact ih (fun u hu => hne u (List.mem_cons_of_mem _ hu))
  | case10 t t1 t2 r2 hw hn1 hn2 happ =>
    intro hne
    have hs := applyCase_isSome t (singleWord d t) (hne t (by simp))
      (singleWord_ne_nil d hv t (hne t (by simp)))
    rw [happ] at hs
    exact absurd hs (by simp)
  | case11 t t1 t2 r2 hw hn1 hn2 tr happ ih =>
    intro hne
    simp only [rewriteTokens, hw, ite_true, if_neg hn1, if_neg hn2, happ,
      optionMap_isSome]
    exact ih (fun u hu => hne u (List.mem_cons_of_mem _ hu))
  | case12 t t1 t2 r2 hw ih =>
    intro hne
    simp only [rewriteTokens, Bool.not_eq_true] at hw
    simp only [rewriteTokens, hw, Bool.false_eq_true, ite_false, optionMap_isSome]
    exact ih (fun u hu => hne u (List.mem_cons_of_mem _ hu))
  | case13 t rest hsh hw happ =>
    intro hne
    have hs := applyCase_isSome t (singleWord d t) (hne t (by simp))
      (singleWord_ne_nil d hv t (hne t (by simp)))
    rw [happ] at hs
    exact absurd hs (by simp)
  | case14 t rest hsh hw tr happ ih =>
    intro hne
    cases rest with
    | nil => simp [rewriteTokens, hw, happ]
    | cons a as =>
      cases as with
      | nil =>
        have ha : a ≠ [] := hne a (by simp)
        by_cases hwa : isWordToken a = true
        · rcases Option.isSome_iff_exists.mp
            (applyCase_isSome a (singleWord d a) ha (singleWord_ne_nil d hv a ha)) with
            ⟨tra, htra⟩
          simp [rewriteTokens, hw, happ, hwa, htra]
        · simp [rewriteTokens, hw, happ, hwa]
      | cons b bs => exact (hsh a b bs rfl).elim
  | case15 t rest hsh hw ih =>
    intro hne
    cases rest with
    | nil => simp [rewriteTokens, hw]
    | cons a as =>
      cases as with
      | nil =>
        have ha : a ≠ [] := hne a (by simp)
        by_cases hwa : isWordToken a = true
        · rcases Option.isSome_iff_exists.mp
            (applyCase_isSome a (singleWord d a) ha (singleWord_ne_nil d hv a ha)) with
            ⟨tra, htra⟩
          simp [rewriteTokens, hw, hwa, htra]
        · simp [rewriteTokens, hw, hwa]
      | cons b bs => exact (hsh a b bs rfl).elim

/-! ### The while loop of lines 92-137 with its explicit cursor -/

/-- One iteration of the while loop at cursor i: the emitted token (none when
the case-preservation block raises) and the new cursor.  The branch guards
are exactly those of lines 96-134 with token = tokens[i]. -/
def stepAt (d : Dict) (tokens : List (List Char)) (i : Nat) :
    Option (List Char) × Nat :=
  if isWordToken (tokens.getD i []) then
    if i + 2 < tokens.length ∧
        (tokens.getD (i + 1) []).map Char.toLower = ['a', 'l', 'l'] then
      match dictLookup d ((tokens.getD i []).map Char.toLower ++ [' ', 'a', 'l', 'l']) with
      | some v => (applyCase (tokens.getD i []) v, i + 2)
      | none => (applyCase (tokens.getD i []) (tokens.getD i []), i + 1)
    else if i + 2 < tokens.length ∧ tokens.getD (i + 1) [] = ['-'] ∧
        (tokens.getD (i + 2) []).map Char.toLower = ['b', 'y', 'e'] then
      match dictLookup d ['g', 'o', 'o', 'd', '-', 'b', 'y', 'e'] with
      | some v => (applyCase (tokens.getD i []) v, i + 3)
      | none => (applyCase (tokens.getD i []) (tokens.getD i []), i + 1)
    else
      (applyCase (tokens.getD i []) (singleWord d (tokens.getD i [])), i + 1)
  else (some (tokens.getD i []), i + 1)

/-- The while loop itself, indexed by fuel: the result none means the fuel
ran out, some none that an IndexError was raised, some (some out) that the
loop finished with the emitted tokens out. -/
def loopFuel (d : Dict) (tokens : List (List Char)) :
    Nat → Nat → Option (Option (List (List Char)))
  | 0, i => if i < tokens.length then none else some (some [])
  | fuel + 1, i =>
    if i < tokens.length then
      match stepAt d tokens i with
      | (none, _) => some none
      | (some e, j) =>
        (loopFuel d tokens fuel j).map (fun r => r.map (fun out => e :: out))
    else some (some [])

/-- Each loop iteration strictly increases the cursor, by at most 3. -/
lemma stepAt_bounds (d : Dict) (tokens : List (List Char)) (i : Nat) :
    i < (stepAt d tokens i).2 ∧ (stepAt d tokens i).2 ≤ i + 3 := by
  unfold stepAt
  split
  · split
    · split <;> constructor <;> simp
    · split
      · split <;> constructor <;> simp
      · constructor <;> simp
  · constructor <;> simp

lemma drop_cons_facts {α : Type} (d₀ : α) : ∀ (l : List α) (i : Nat) (t : α) (rest : List α),
    l.drop i = t :: rest →
    l.getD i d₀ = t ∧ l.drop (i + 1) = rest ∧ i < l.length := by
  intro l
  induction l with
  | nil => intro i t rest h; simp at h
  | cons a l₂ ih =>
    intro i t rest h
    cases i with
    | zero =>
      simp only [List.drop_zero] at h
      cases h
      exact ⟨List.getD_cons_zero, by simp, by simp⟩
    | succ j =>
      have h₂ : l₂.drop j = t :: rest := by simpa using h
      obtain ⟨g1, g2, g3⟩ := ih j t rest h₂
      refine ⟨by simpa using g1, by simpa using g2, by simp; omega⟩

/-- With fuel at least the number of tokens left, the while loop terminates
and computes exactly what the recursive rewriter computes on the remaining
suffix of the token list. -/
lemma loopFuel_eq (d : Dict) (tokens : List (List Char)) : ∀ (fuel i : Nat),
    tokens.length ≤ fuel + i →
    loopFuel d tokens fuel i = some (rewriteTokens d (tokens.drop i)) := by
  intro fuel
  induction fuel with
  | zero =>
    intro i hle
    rw [List.drop_eq_nil_of_le (by omega)]
    simp only [loopFuel, rewriteTokens]
    rw [if_neg (by omega)]
  | succ fuel ih =>
    intro i hle
    by_cases hi : i < tokens.length
    case neg =>
      rw [List.drop_eq_nil_of_le (by omega)]
      simp only [loopFuel, rewriteTokens]
      rw [if_neg hi]
    case pos =>
      obtain ⟨t, rest, hdrop⟩ : ∃ t rest, tokens.drop i = t :: rest := by
        cases hd : tokens.drop i with
        | nil =>
          exfalso
          have hL := List.length_drop i tokens
          rw [hd] at hL
          simp at hL
          omega
        | cons t rest => exact ⟨t, rest, rfl⟩
      obtain ⟨hget, hdrop1, _⟩ := drop_cons_facts [] tokens i t rest hdrop
      rw [hdrop]
      simp only [loopFuel, if_pos hi, stepAt, hget]
      by_cases hwt : isWordToken t = true
      case neg =>
        rw [if_neg hwt]
        have ihx := ih (i + 1) (by omega)
        rw [hdrop1] at ihx
        cases rest with
        | nil => simp [rewriteTokens, hwt, ihx]
        | cons t1 rest1 =>
          cases rest1 with
          | nil => simp [rewriteTokens, hwt, ihx]
          | cons t2 r2 => simp [rewriteTokens, hwt, ihx]
      case pos =>
        rw [if_pos hwt]
        cases rest with
        | nil =>
          have hL := List.length_drop i tokens
          rw [hdrop] at hL
          simp at hL
          have hnc : ¬ (i + 2 < tokens.length) := by omega
          rw [if_neg (fun h => hnc h.1), if_neg (fun h => hnc h.1)]
          cases happ : applyCase t (singleWord d t) with
          | none => simp [rewriteTokens, hwt, happ]
          | some e =>
            have ihx := ih (i + 1) (by omega)
            rw [hdrop1] at ihx
            simp [rewriteTokens, hwt, happ, ihx]
        | cons t1 rest1 =>
          obtain ⟨hget1, hdrop2, _⟩ := drop_cons_facts [] tokens (i + 1) t1 rest1 hdrop1
          rw [hget1]
          cases rest1 with
          | nil =>
            have hL := List.length_drop i tokens
            rw [hdrop] at hL
            simp at hL
            have hnc : ¬ (i + 2 < tokens.length) := by omega
            rw [if_neg (fun h => hnc h.1), if_neg (fun h => hnc h.1)]
            cases happ : applyCase t (singleWord d t) with
            | none => simp [rewriteTokens, hwt, happ]
            | some e =>
              have ihx := ih (i + 1) (by omega)
              rw [hdrop1] at ihx
              simp [rewriteTokens, hwt, happ, ihx]
          | cons t2 r2 =>
            obtain ⟨hget2, hdrop3, hlen3⟩ := drop_cons_facts [] tokens (i + 2) t2 r2 hdrop2
            rw [hget2]
            by_cases hall1 : t1.map Char.toLower = ['a', 'l', 'l']
            case pos =>
              rw [if_pos ⟨hlen3, hall1⟩]
              cases hk : dictLookup d (t.map Char.toLower ++ [' ', 'a', 'l', 'l']) with
              | some v =>
                cases happ : applyCase t v with
                | none => simp [rewriteTokens, hwt, if_pos hall1, hk, happ]
                | some e =>
                  have ihx := ih (i + 2) (by omega)
                  rw [hdrop2] at ihx
                  simp [rewriteTokens, hwt, if_pos hall1, hk, happ, ihx]
              | none =>
                cases happ : applyCase t t with
                | none => simp [rewriteTokens, hwt, if_pos hall1, hk, happ]
                | some e =>
                  have ihx := ih (i + 1) (by omega)
                  rw [hdrop1] at ihx
                  simp [rewriteTokens, hwt, if_pos hall1, hk, happ, ihx]
            case neg =>
              rw [if_neg (fun h => hall1 h.2)]
              by_cases hbye : t1 = ['-'] ∧ t2.map Char.toLower = ['b', 'y', 'e']
              case pos =>
                rw [if_pos ⟨hlen3, hbye.1, hbye.2⟩]
                cases hk : dictLookup d ['g', 'o', 'o', 'd', '-', 'b', 'y', 'e'] with
                | some v =>
                  cases happ : applyCase t v with
                  | none => simp [rewriteTokens, hwt, if_neg hall1, if_pos hbye, hk, happ]
                  | some e =>
                    have ihx := ih (i + 3) (by omega)
                    rw [hdrop3] at ihx
                    simp [rewriteTokens, hwt, if_neg hall1, if_pos hbye, hk, happ, ihx]
                | none =>
                  cases happ : applyCase t t with
                  | none => simp [rewriteTokens, hwt, if_neg hall1, if_pos hbye, hk, happ]
                  | some e =>
                    have ihx := ih (i + 1) (by omega)
                    rw [hdrop1] at ihx
                    simp [rewriteTokens, hwt, if_neg hall1, if_pos hbye, hk, happ, ihx]
              case neg =>
                rw [if_neg (fun h => hbye ⟨h.2.1, h.2.2⟩)]
                cases happ : applyCase t (singleWord d t) with
                | none => simp [rewriteTokens, hwt, if_neg hall1, if_neg hbye, happ]
                | some e =>
                  have ihx := ih (i + 1) (by omega)
                  rw [hdrop1] at ihx
                  simp [rewriteTokens, hwt, if_neg hall1, if_neg hbye, happ, ihx]

/-! ### The claims -/

/-- C1: the claim states that with the dictionary mapping the phrase
you-space-all to yall-conlang and you to yu, the input you-space-all yields
yall-conlang (phrase priority) and the input you alone yields yu.  The code
disagrees on the first part: the phrase branch requires the literal next
token to equal all, which the whitespace token produced by tokenization makes
impossible, so the single-word path fires and the output is yu-space-all.
This theorem evaluates the code at the failing input and confirms the second
part. -/
theorem claim_C1 :
    translate_to_conlang "you all" (mkDict [("you all", "yall-conlang"), ("you", "yu")]) =
        some "yu all" ∧
    translate_to_conlang "you" (mkDict [("you all", "yall-conlang"), ("you", "yu")]) =
        some "yu" ∧
    (some "yu all" : Option String) ≠ some "yall-conlang" :=
  ⟨by decide, by decide, by decide⟩

/-- C2 counterexample: the claim says translate_to_conlang completes for
every dictionary, including ones with empty replacement values.  It does not:
with the dictionary mapping hello to the empty string, the capitalized input
Hello reaches the index translated[0] of an empty string and raises an
IndexError, modelled here as none. -/
theorem claim_C2_counterexample :
    translate_to_conlang "Hello" (mkDict [("hello", "")]) = none := by decide

/-- C2 as amended: for every input text and every dictionary whose
replacement values are all nonempty, translate_to_conlang completes and
returns a string.  The code has no emptiness guard before indexing the
replacement, so the claim holds only under this restriction. -/
theorem claim_C2 (text : String) (d : Dict) (hv : ∀ p ∈ d, p.2 ≠ []) :
    (translate_to_conlang text d).isSome = true := by
  unfold translate_to_conlang
  rw [optionMap_isSome]
  exact rewriteTokens_isSome d hv (tokenize text.data)
    (fun t ht => (tokenize_shape text.data t ht).1)

/-- C2 witness. -/
theorem claim_C2_witness :
    (translate_to_conlang "Hello, world!" (mkDict [("hello", "zorg")])).isSome = true :=
  claim_C2 "Hello, world!" (mkDict [("hello", "zorg")]) (by decide)

/-- C3 counterexample: the claim says that with the dictionary mapping good
to bon, input good-hyphen-bye falls through to single-word handling and
yields bon-hyphen-bye.  The code instead emits the token unchanged without
any single-word lookup, so the output is good-hyphen-bye. -/
theorem claim_C3_counterexample :
    translate_to_conlang "good-bye" (mkDict [("good", "bon")]) = some "good-bye" ∧
    (some "good-bye" : Option String) ≠ some "bon-bye" :=
  ⟨by decide, by decide⟩

/-- C3 as amended: when the structural good-bye pattern is present but the
key good-bye is absent from the dictionary, token i is emitted unchanged
(with case preservation applied to the token itself, no single-word lookup)
and the cursor advances by 1, so the hyphen and the bye token are processed
independently afterwards. -/
theorem claim_C3 (d : Dict) (t t2 : List Char) (r2 : List (List Char))
    (hw : isWordToken t = true) (hb : t2.map Char.toLower = ['b', 'y', 'e'])
    (hk : dictLookup d ['g', 'o', 'o', 'd', '-', 'b', 'y', 'e'] = none) :
    rewriteTokens d (t :: ['-'] :: t2 :: r2) =
      (applyCase t t).bind
        (fun tr => (rewriteTokens d (['-'] :: t2 :: r2)).map (fun out => tr :: out)) := by
  have hn1 : ¬ (['-'] : List Char).map Char.toLower = ['a', 'l', 'l'] := by decide
  simp only [rewriteTokens, hw, ite_true, if_neg hn1]
  rw [if_pos (And.intro trivial hb), hk]
  cases applyCase t t <;> rfl

/-- C3 witness. -/
theorem claim_C3_witness :
    rewriteTokens (mkDict [("good", "bon")]) ["good".data, ['-'], "bye".data] =
      (applyCase "good".data "good".data).bind
        (fun tr => (rewriteTokens (mkDict [("good", "bon")]) [['-'], "bye".data]).map
          (fun out => tr :: out)) :=
  claim_C3 (mkDict [("good", "bon")]) "good".data "bye".data [] (by decide) (by decide)
    (by decide)

/-- C4 counterexample: the claim says every word token absent from the
dictionary is emitted exactly as written, including mixed-case words such as
HeLLo.  The code applies the case-preservation block to passthrough tokens
too, so the unmatched word HeLLo is emitted as Hello. -/
theorem claim_C4_counterexample :
    translate_to_conlang "HeLLo" [] = some "Hello" ∧ ("Hello" : String) ≠ "HeLLo" :=
  ⟨by decide, by decide⟩

/-- C4 as amended: a word token t that is absent (lowercased) from the
dictionary and does not start a fired phrase rule is emitted exactly as
written provided the case-preservation block maps t to itself, which holds
unless t has an uppercase first letter, length greater than one, and mixed
case in the remainder; such words (for example HeLLo) are normalized to
capitalized form instead. -/
theorem claim_C4 (d : Dict) (t : List Char) (rest : List (List Char))
    (hw : isWordToken t = true)
    (hm : dictLookup d (t.map Char.toLower) = none)
    (hfix : applyCase t t = some t)
    (h1 : ∀ t1 t2 r2, rest = t1 :: t2 :: r2 → t1.map Char.toLower = ['a', 'l', 'l'] →
      dictLookup d (t.map Char.toLower ++ [' ', 'a', 'l', 'l']) = none)
    (h2 : ∀ t1 t2 r2, rest = t1 :: t2 :: r2 → t1 = ['-'] →
      t2.map Char.toLower = ['b', 'y', 'e'] →
      dictLookup d ['g', 'o', 'o', 'd', '-', 'b', 'y', 'e'] = none) :
    rewriteTokens d (t :: rest) = (rewriteTokens d rest).map (fun out => t :: out) := by
  have hsw : singleWord d t = t := by unfold singleWord; rw [hm]
  cases rest with
  | nil => simp [rewriteTokens, hw, hsw, hfix]
  | cons t1 rest1 =>
    cases rest1 with
    | nil => simp [rewriteTokens, hw, hsw, hfix]
    | cons t2 r2 =>
      by_cases hall1 : t1.map Char.toLower = ['a', 'l', 'l']
      · have hk := h1 t1 t2 r2 rfl hall1
        simp only [rewriteTokens, hw, ite_true, if_pos hall1, hk, hfix]
      · by_cases hbye : t1 = ['-'] ∧ t2.map Char.toLower = ['b', 'y', 'e']
        · have hk := h2 t1 t2 r2 rfl hbye.1 hbye.2
          simp only [rewriteTokens, hw, ite_true, if_neg hall1, if_pos hbye, hk, hfix]
        · simp only [rewriteTokens, hw, ite_true, if_neg hall1, if_neg hbye, hsw, hfix]

/-- C4 witness. -/
theorem claim_C4_witness :
    rewriteTokens [] ["hello".data] =
      (rewriteTokens [] []).map (fun out => "hello".data :: out) :=
  claim_C4 [] "hello".data [] (by decide) (by decide) (by decide)
    (fun t1 t2 r2 h => absurd h (by simp))
    (fun t1 t2 r2 h => absurd h (by simp))

/-- C5: in every tokenization no two word tokens are adjacent, so the match
condition of the word-all rule never holds, and translate_to_conlang is
extensionally equal to the same rewriter with the word-all rule removed; in
particular the output never depends on any word-all dictionary key. -/
theorem claim_C5 :
    (∀ text : String,
      List.Chain' (fun a b => (isWordToken a && isWordToken b) = false)
        (tokenize text.data)) ∧
    ∀ (text : String) (d : Dict), translate_to_conlang text d = translateNoAllRule text d := by
  constructor
  · intro text
    exact tokenize_chain text.data
  · intro text d
    unfold translate_to_conlang translateNoAllRule
    rw [rewrite_noAllRule_eq d (tokenize text.data) (tokenize_shape text.data)
      (tokenize_chain text.data)]

/-- C6: segmenting any input string with the tokenizer and concatenating the
resulting tokens in order reproduces the input exactly. -/
theorem claim_C6 (s : String) : String.mk (tokenize s.data).flatten = s := by
  rw [tokenize_flatten]

/-- C7: with the dictionary mapping good-bye to vashtu, the input Good-bye is
consumed as one three-token phrase and the case pattern of the first token
Good is applied to the replacement, giving Vashtu. -/
theorem claim_C7 :
    translate_to_conlang "Good-bye" (mkDict [("good-bye", "vashtu")]) = some "Vashtu" := by
  decide

/-- C8: with the dictionary mapping only you to yu, the input you-space-all
becomes yu-space-all: you is replaced by single-word lookup and all passes
through unchanged. -/
theorem claim_C8 :
    translate_to_conlang "you all" (mkDict [("you", "yu")]) = some "yu all" := by decide

/-- C9: with the dictionary mapping hello to zorg, the inputs HELLO, Hello
and hello give ZORG, Zorg and zorg respectively. -/
theorem claim_C9 :
    translate_to_conlang "HELLO" (mkDict [("hello", "zorg")]) = some "ZORG" ∧
    translate_to_conlang "Hello" (mkDict [("hello", "zorg")]) = some "Zorg" ∧
    translate_to_conlang "hello" (mkDict [("hello", "zorg")]) = some "zorg" :=
  ⟨by decide, by decide, by decide⟩

/-- C10: every iteration of the rewrite loop strictly increases the cursor by
at most 3, and with fuel equal to the number of tokens the while loop always
finishes, computing exactly what the recursive rewriter computes, so the loop
terminates on every input. -/
theorem claim_C10 :
    (∀ (d : Dict) (tokens : List (List Char)) (i : Nat),
      i < (stepAt d tokens i).2 ∧ (stepAt d tokens i).2 ≤ i + 3) ∧
    ∀ (d : Dict) (text : String) (fuel : Nat),
      (tokenize text.data).length ≤ fuel →
      loopFuel d (tokenize text.data) fuel 0 =
        some (rewriteTokens d (tokenize text.data)) := by
  constructor
  · intro d tokens i
    exact stepAt_bounds d tokens i
  · intro d text fuel hfuel
    have h := loopFuel_eq d (tokenize text.data) fuel 0 (by omega)
    simpa using h

/-- C10 witness. -/
theorem claim_C10_witness :
    (0 < (stepAt [] [] 0).2 ∧ (stepAt [] [] 0).2 ≤ 0 + 3) ∧
    loopFuel [] (tokenize "hi".data) 1 0 =
      some (rewriteTokens [] (tokenize "hi".data)) :=
  ⟨claim_C10.1 [] [] 0, claim_C10.2 [] "hi" 1 (by decide)⟩
